import Mathlib

/-!
Shallow embedding of the tail-and-detect monitor of odpy (src/odpy/common.py):
the functions `tail`, `batchIsFinished` and `reset_log_file`.

A text file is modelled as the list of its characters (after newline
translation, so a line terminator is the single character of code 10).
An open file handle is the file content together with the current read
position.  `fp.readlines()` splits the content from the current position
into lines, keeping the terminators, and moves the position to
end-of-file.  `fp.seek(-off, SEEK_END)` positions the handle `off`
characters before end-of-file and fails (IOError) exactly when that
position would be before byte 0.
-/

namespace Odpy

/-- A line of a text file: the list of its characters, terminator included. -/
abbrev Line := List Char

/-- `fp.readlines()` applied to a character sequence: split into lines,
each line keeping its terminating newline; a trailing segment without a
terminator is a final line; the empty sequence has no lines. -/
def readlines : List Char → List Line
  | [] => []
  | c :: cs =>
    if c = '\n' then ['\n'] :: readlines cs
    else
      match readlines cs with
      | [] => [[c]]
      | l :: ls => (c :: l) :: ls

/-- An open file handle: the file content and the current read position. -/
structure Handle where
  content : List Char
  pos : Nat

/-- `fp.seek(-off, os.SEEK_END)`: fails (IOError) iff the target position
`size - off` would be before byte 0, otherwise repositions the handle. -/
def seekEnd (h : Handle) (off : Nat) : Option Handle :=
  if h.content.length < off then none
  else some ⟨h.content, h.content.length - off⟩

/-- `fp.readlines()` on a handle: the lines from the current position to
end-of-file; the position moves to end-of-file. -/
def readlinesH (h : Handle) : List Line × Handle :=
  (readlines (h.content.drop h.pos), ⟨h.content, h.content.length⟩)

/-- Python's `ls[-n:]` slice: for `n = 0` the whole list (Python `-0` is `0`),
otherwise the last at-most-`n` elements. -/
def pySliceLast (l : List Line) (n : Nat) : List Line :=
  if n = 0 then l else l.drop (l.length - n)

/-- `while '\n' in ret: ret.remove('\n')` — each pass deletes the first
element equal to the bare newline line; the list length bounds the number
of passes, so it is the fuel. -/
def removeNlLoop : Nat → List Line → List Line
  | 0, ret => ret
  | fuel + 1, ret =>
    if ['\n'] ∈ ret then removeNlLoop fuel (ret.erase ['\n']) else ret

/-- The `strip_empty` post-processing of `tail`. -/
def stripEmptyLines (ret : List Line) : List Line :=
  removeNlLoop ret.length ret

/-- The backward block scan of `tail`:
`while len(lines_found) < lines:` seek `-off` from end-of-file; on IOError
seek to 0, read the whole file and break; otherwise read the lines from the
seek position and move one block further back.  `off` starts at `_buffer`
and grows by `_buffer` each turn (`block_counter` is `-off / _buffer`).
The structural fuel bounds the number of turns; for a positive block size,
`content.length + 2` turns always reach an exit (proved below). -/
def tailLoop (k buffer : Nat) : Nat → Nat → List Line → Handle → List Line × Handle
  | 0, _, acc, h => (acc, h)
  | fuel + 1, off, acc, h =>
    if k ≤ acc.length then (acc, h)
    else
      match seekEnd h off with
      | none => readlinesH ⟨h.content, 0⟩
      | some h1 =>
        let r := readlinesH h1
        tailLoop k buffer fuel (off + buffer) r.1 r.2

/-- `tail(fp, lines, strip_empty, _buffer)` (src/odpy/common.py:877):
run the backward block scan, take the `[-lines:]` slice of the lines found,
and if `strip_empty` remove every bare-newline entry.  Returns the result
and the handle after the call. -/
def tail (h : Handle) (lines : Nat) (strip : Bool) (buffer : Nat) :
    List Line × Handle :=
  let s := tailLoop lines buffer (h.content.length + 2) buffer [] h
  let ret := pySliceLast s.1 lines
  (if strip then stripEmptyLines ret else ret, s.2)

/-- The lines returned by `tail` on a file opened at position 0. -/
def tailResult (c : List Char) (lines : Nat) (strip : Bool) (buffer : Nat) :
    List Line :=
  (tail ⟨c, 0⟩ lines strip buffer).1

/-- The one error `batchIsFinished` can raise: `open` on a missing path. -/
inductive PyError where
  | fileNotFound
  deriving DecidableEq

/-- The completion marker of `batchIsFinished`. -/
def finishedMarker : List Char := "Finished batch processing".toList

/-- Python's substring test `needle in hay` on character lists. -/
def hasSubstr (needle : List Char) : List Char → Bool
  | [] => needle.isPrefixOf []
  | c :: t => needle.isPrefixOf (c :: t) || hasSubstr needle t

/-- `batchIsFinished(logfile)` (src/odpy/common.py:906): the file is
`none` when the path names no existing file, in which case `open` raises
FileNotFoundError; otherwise `ret = tail(fd, 10, True)` and the result is
`len(ret) > 0 and 'Finished batch processing' in ret[-1]`.  The second
component of the `ok` value is the file content after the call. -/
def batchIsFinished (file : Option (List Char)) :
    Except PyError (Bool × Option (List Char)) :=
  match file with
  | none => Except.error PyError.fileNotFound
  | some c =>
    let r := tail ⟨c, 0⟩ 10 true 4098
    Except.ok
      (decide (0 < r.1.length) && hasSubstr finishedMarker (r.1.getLastD []),
       some r.2.content)

/-- The read loop of `reset_log_file`: `for line in f:` append the line,
increment `idx`, and `if idx >= keeplines: break`.  `idx` here is the value
before the increment, so the loop breaks once `idx + 1 ≥ keeplines`. -/
def resetReadLoop (keeplines : Nat) : List Line → Nat → List Line
  | [], _ => []
  | l :: ls, idx =>
    if keeplines ≤ idx + 1 then [l]
    else l :: resetReadLoop keeplines ls (idx + 1)

/-- `reset_log_file(keeplines)` (src/odpy/common.py:324) acting on the log
file content: read lines until the break condition fires, then rewrite the
file with exactly the kept lines. -/
def reset_log_file (c : List Char) (keeplines : Nat) : List Char :=
  (resetReadLoop keeplines (readlines c) 0).flatten

/-- The spec's reading of the strip order in `readTail`: blank lines are
removed from the accumulated line sequence of the file first, and only then
the result is truncated to the last at-most-`count` entries. -/
def specStripThenSlice (c : List Char) (k : Nat) : List Line :=
  pySliceLast (stripEmptyLines (readlines c)) k

/-- The spec's reading of a blank entry: one that is entirely whitespace. -/
def isWhitespaceChar (c : Char) : Bool :=
  c = ' ' || c = '\t' || c = '\n' || c = '\r'

/-! ### Basic lemmas about `readlines` and the strip loop -/

theorem readlines_cons_length_le (ch : Char) (cs : List Char) :
    (readlines cs).length ≤ (readlines (ch :: cs)).length := by
  rw [readlines]
  split
  · simp
  · cases hcs : readlines cs with
    | nil => simp
    | cons l ls => simp [hcs]

theorem readlines_drop_length_le (j : Nat) (c : List Char) :
    (readlines (c.drop j)).length ≤ (readlines c).length := by
  induction j generalizing c with
  | zero => simp
  | succ j ih =>
    cases c with
    | nil => simp
    | cons ch cs =>
      calc (readlines ((ch :: cs).drop (j + 1))).length
          = (readlines (cs.drop j)).length := by simp
        _ ≤ (readlines cs).length := ih cs
        _ ≤ (readlines (ch :: cs)).length := readlines_cons_length_le ch cs

theorem filter_erase_nl (p : Line → Bool) (hp : p ['\n'] = false) :
    ∀ ret : List Line, (ret.erase ['\n']).filter p = ret.filter p := by
  intro ret
  induction ret with
  | nil => rfl
  | cons x xs ih =>
    by_cases hx : x = ['\n']
    · subst hx
      simp [List.erase_cons, hp]
    · rw [List.erase_cons, if_neg (by simpa using hx)]
      by_cases hpx : p x
      · simp [List.filter_cons, hpx, ih]
      · simp only [List.filter_cons]
        rw [Bool.not_eq_true] at hpx
        simp [hpx, ih]

theorem removeNlLoop_eq_filter :
    ∀ (fuel : Nat) (ret : List Line), ret.length ≤ fuel →
      removeNlLoop fuel ret = ret.filter (fun l => l != ['\n']) := by
  intro fuel
  induction fuel with
  | zero =>
    intro ret hlen
    rw [List.length_eq_zero.mp (Nat.le_zero.mp hlen)]
    rfl
  | succ fuel ih =>
    intro ret hlen
    rw [removeNlLoop]
    by_cases hmem : ['\n'] ∈ ret
    · rw [if_pos hmem]
      rw [ih (ret.erase ['\n'])
        (by rw [List.length_erase_of_mem hmem]; omega)]
      exact filter_erase_nl _ (by simp) ret
    · rw [if_neg hmem]
      refine (List.filter_eq_self.mpr ?_).symm
      intro a ha
      simp only [bne_iff_ne, ne_eq]
      exact fun h => hmem (h ▸ ha)

theorem stripEmptyLines_eq_filter (ret : List Line) :
    stripEmptyLines ret = ret.filter (fun l => l != ['\n']) :=
  removeNlLoop_eq_filter ret.length ret le_rfl

/-! ### Lemmas about the backward scan -/

theorem tailLoop_succ (k b fuel off : Nat) (acc : List Line) (h : Handle) :
    tailLoop k b (fuel + 1) off acc h =
      if k ≤ acc.length then (acc, h)
      else
        match seekEnd h off with
        | none => readlinesH ⟨h.content, 0⟩
        | some h1 => tailLoop k b fuel (off + b) (readlinesH h1).1 (readlinesH h1).2 :=
  rfl

/-- The scan never reads the entry position of the handle: its first action
on every turn is an end-relative seek.  Result lines are therefore
independent of the position, and the handle keeps its content. -/
theorem tailLoop_pos_irrel (k b : Nat) :
    ∀ (fuel off : Nat) (acc : List Line) (c : List Char) (p q : Nat),
      (tailLoop k b fuel off acc ⟨c, p⟩).1 = (tailLoop k b fuel off acc ⟨c, q⟩).1 ∧
      ((tailLoop k b fuel off acc ⟨c, p⟩).2).content = c := by
  intro fuel
  induction fuel with
  | zero => intro off acc c p q; exact ⟨rfl, rfl⟩
  | succ fuel ih =>
    intro off acc c p q
    rw [tailLoop_succ, tailLoop_succ]
    by_cases hk : k ≤ acc.length
    · simp [hk]
    · rw [if_neg hk, if_neg hk]
      unfold seekEnd
      by_cases hoff : c.length < off
      · simp [hoff, readlinesH]
      · simp only [if_neg hoff]
        refine ⟨trivial, ?_⟩
        simpa [readlinesH] using
          (ih (off + b) (readlinesH ⟨c, c.length - off⟩).1 c c.length c.length).2

/-- Exit analysis of the backward scan.  With a positive block size and
fuel exceeding the remaining distance to the front of the file, the lines
found on exit are the line split of some suffix of the file, and the loop
has stopped either with at least `k` lines or by reading the whole file
after a seek before byte 0. -/
theorem tailLoop_master (k b : Nat) (hb : 1 ≤ b) (c : List Char) :
    ∀ (fuel off : Nat) (acc : List Line) (p : Nat),
      1 ≤ fuel → c.length < off + fuel →
      (∃ j, acc = readlines (c.drop j)) →
      (∃ j, (tailLoop k b fuel off acc ⟨c, p⟩).1 = readlines (c.drop j)) ∧
      (k ≤ (tailLoop k b fuel off acc ⟨c, p⟩).1.length ∨
        (tailLoop k b fuel off acc ⟨c, p⟩).1 = readlines c) := by
  intro fuel
  induction fuel with
  | zero => intro off acc p h1; omega
  | succ fuel ih =>
    intro off acc p _ hfuel hacc
    rw [tailLoop_succ]
    by_cases hk : k ≤ acc.length
    · rw [if_pos hk]
      exact ⟨hacc, Or.inl hk⟩
    · rw [if_neg hk]
      unfold seekEnd
      by_cases hoff : c.length < off
      · simp only [if_pos hoff]
        exact ⟨⟨0, by simp [readlinesH]⟩, Or.inr (by simp [readlinesH])⟩
      · simp only [if_neg hoff]
        rcases Nat.eq_zero_or_pos fuel with hf0 | hf1
        · subst hf0
          have hoffeq : off = c.length := by omega
          simp only [readlinesH, tailLoop]
          subst hoffeq
          exact ⟨⟨0, by simp⟩, Or.inr (by simp)⟩
        · have hstep := ih (off + b) (readlinesH ⟨c, c.length - off⟩).1 c.length
            hf1 (by omega) ⟨c.length - off, by simp [readlinesH]⟩
          simpa [readlinesH] using hstep

/-- One unit of extra fuel does not change the scan once the fuel exceeds
the remaining distance to the front of the file. -/
theorem tailLoop_fuel_succ_stable (k b : Nat) (hb : 1 ≤ b) (c : List Char) :
    ∀ (fuel off : Nat) (acc : List Line) (p : Nat),
      1 ≤ fuel → c.length < off + fuel →
      tailLoop k b (fuel + 1) off acc ⟨c, p⟩ = tailLoop k b fuel off acc ⟨c, p⟩ := by
  intro fuel
  induction fuel with
  | zero => intro off acc p h1; omega
  | succ fuel ih =>
    intro off acc p _ hfuel
    rw [tailLoop_succ k b (fuel + 1), tailLoop_succ k b fuel]
    by_cases hk : k ≤ acc.length
    · rw [if_pos hk, if_pos hk]
    · rw [if_neg hk, if_neg hk]
      unfold seekEnd
      by_cases hoff : c.length < off
      · simp only [if_pos hoff]
      · simp only [if_neg hoff]
        rcases Nat.eq_zero_or_pos fuel with hf0 | hf1
        · subst hf0
          have hoffeq : off = c.length := by omega
          subst hoffeq
          rw [tailLoop_succ, tailLoop]
          simp only [readlinesH, List.drop_zero, Nat.sub_self]
          by_cases hk2 : k ≤ (readlines c).length
          · rw [if_pos (by simpa using hk2)]
          · rw [if_neg (by simpa using hk2)]
            unfold seekEnd
            rw [if_pos (by simp; omega)]
        · exact ih (off + b) (readlinesH ⟨c, c.length - off⟩).1 c.length hf1 (by omega)

/-- Any amount of extra fuel does not change the scan once the fuel
exceeds the remaining distance to the front of the file. -/
theorem tailLoop_fuel_add_stable (k b : Nat) (hb : 1 ≤ b) (c : List Char) :
    ∀ (d fuel off : Nat) (acc : List Line) (p : Nat),
      1 ≤ fuel → c.length < off + fuel →
      tailLoop k b (fuel + d) off acc ⟨c, p⟩ = tailLoop k b fuel off acc ⟨c, p⟩ := by
  intro d
  induction d with
  | zero => intro fuel off acc p _ _; rfl
  | succ d ih =>
    intro fuel off acc p hfuel hlt
    calc tailLoop k b (fuel + (d + 1)) off acc ⟨c, p⟩
        = tailLoop k b ((fuel + d) + 1) off acc ⟨c, p⟩ := by
          rw [Nat.add_succ, Nat.succ_eq_add_one]
      _ = tailLoop k b (fuel + d) off acc ⟨c, p⟩ :=
          tailLoop_fuel_succ_stable k b hb c (fuel + d) off acc p (by omega) (by omega)
      _ = tailLoop k b fuel off acc ⟨c, p⟩ := ih fuel off acc p hfuel hlt

/-! ### Derived facts about `tailResult` -/

theorem tailResult_eq (c : List Char) (k : Nat) (s : Bool) (b : Nat) :
    tailResult c k s b =
      if s then stripEmptyLines (pySliceLast ((tailLoop k b (c.length + 2) b [] ⟨c, 0⟩).1) k)
      else pySliceLast ((tailLoop k b (c.length + 2) b [] ⟨c, 0⟩).1) k :=
  rfl

/-- The strip branch of `tail` equals a filter of the unstripped branch:
the scan itself never looks at `strip_empty`, and removing the first bare
newline until none is left removes exactly every bare-newline entry. -/
theorem tailResult_strip_eq_filter (c : List Char) (k b : Nat) :
    tailResult c k true b = (tailResult c k false b).filter (fun l => l != ['\n']) := by
  have h : tailResult c k true b = stripEmptyLines (tailResult c k false b) := rfl
  rw [h, stripEmptyLines_eq_filter]

theorem bare_newline_not_mem_tailResult (c : List Char) (k b : Nat) :
    ['\n'] ∉ tailResult c k true b := by
  rw [tailResult_strip_eq_filter]
  intro hmem
  have := (List.mem_filter.mp hmem).2
  simp at this

/-- The length/content analysis of the unstripped result used by several
claims: the result has exactly `min k L` entries, and once the requested
count exceeds the total line count the whole file is returned verbatim. -/
theorem tailResult_min_facts (c : List Char) (k b : Nat) (hk : 1 ≤ k) (hb : 1 ≤ b) :
    (tailResult c k false b).length = min k (readlines c).length ∧
    ((readlines c).length < k → tailResult c k false b = readlines c) := by
  obtain ⟨⟨j, hj⟩, hdisj⟩ :=
    tailLoop_master k b hb c (c.length + 2) b [] 0 (by omega) (by omega)
      ⟨c.length, by simp [readlines]⟩
  have hres : tailResult c k false b =
      pySliceLast ((tailLoop k b (c.length + 2) b [] ⟨c, 0⟩).1) k := rfl
  have hFle : ((tailLoop k b (c.length + 2) b [] ⟨c, 0⟩).1).length ≤ (readlines c).length := by
    rw [hj]; exact readlines_drop_length_le j c
  have hslice : (pySliceLast ((tailLoop k b (c.length + 2) b [] ⟨c, 0⟩).1) k).length =
      ((tailLoop k b (c.length + 2) b [] ⟨c, 0⟩).1).length -
        (((tailLoop k b (c.length + 2) b [] ⟨c, 0⟩).1).length - k) := by
    rw [pySliceLast, if_neg (by omega)]
    exact List.length_drop _ _
  constructor
  · rw [hres, hslice]
    rcases hdisj with hkF | hfull
    · have hkL : k ≤ (readlines c).length := le_trans hkF hFle
      omega
    · have := congrArg List.length hfull
      omega
  · intro hLk
    rcases hdisj with hkF | hfull
    · exact absurd (le_trans hkF hFle) (by omega)
    · rw [hres, hfull, pySliceLast, if_neg (by omega),
        show (readlines c).length - k = 0 by omega, List.drop_zero]

/-! ### A file whose single line is longer than the default block size -/

/-- A file holding one line of 4099 characters: with the default block
size 4098, the first backward seek of `tail` lands inside the line. -/
def longLineFile : List Char := List.replicate 4098 'a' ++ ['\n']

theorem readlines_replicate_nl (n : Nat) :
    readlines (List.replicate n 'a' ++ ['\n']) = [List.replicate n 'a' ++ ['\n']] := by
  induction n with
  | zero => rfl
  | succ n ih =>
    rw [List.replicate_succ, List.cons_append, readlines, if_neg (by decide), ih]

theorem longLineFile_length : longLineFile.length = 4099 := by
  rw [longLineFile, List.length_append, List.length_replicate, List.length_singleton]

theorem longLineFile_drop_one :
    longLineFile.drop 1 = List.replicate 4097 'a' ++ ['\n'] := by
  rw [longLineFile, show (4098 : Nat) = 4097 + 1 from rfl, List.replicate_succ,
    List.cons_append, List.drop_succ_cons, List.drop_zero]

theorem tailResult_longLineFile :
    tailResult longLineFile 1 false 4098 = [List.replicate 4097 'a' ++ ['\n']] := by
  have hseek : seekEnd ⟨longLineFile, 0⟩ 4098 = some ⟨longLineFile, 1⟩ := by
    rw [seekEnd]
    rw [if_neg (by rw [longLineFile_length]; omega)]
    rw [longLineFile_length]
  have hread : readlinesH ⟨longLineFile, 1⟩ =
      ([List.replicate 4097 'a' ++ ['\n']], ⟨longLineFile, longLineFile.length⟩) := by
    rw [readlinesH]
    rw [show (⟨longLineFile, 1⟩ : Handle).content = longLineFile from rfl,
      show (⟨longLineFile, 1⟩ : Handle).pos = 1 from rfl,
      longLineFile_drop_one, readlines_replicate_nl]
  have hloop : tailLoop 1 4098 (longLineFile.length + 2) 4098 [] ⟨longLineFile, 0⟩ =
      ([List.replicate 4097 'a' ++ ['\n']], ⟨longLineFile, longLineFile.length⟩) := by
    rw [show longLineFile.length + 2 = (longLineFile.length + 1) + 1 from rfl, tailLoop_succ]
    rw [if_neg (by simp)]
    rw [hseek]
    simp only [hread]
    rw [tailLoop_succ]
    rw [if_pos (by rw [List.length_singleton])]
  rw [tailResult_eq, if_neg (by simp)]
  rw [hloop, pySliceLast, if_neg (by omega), List.length_singleton, Nat.sub_self,
    List.drop_zero]

/-- `tail` only reads: the handle it returns still holds the same file
content. -/
theorem tail_content_preserved (h : Handle) (k b : Nat) (s : Bool) :
    ((tail h k s b).2).content = h.content :=
  (tailLoop_pos_irrel k b (h.content.length + 2) b [] h.content h.pos h.pos).2

/-- `batchIsFinished` on an existing file: the boolean of the source and
the file content unchanged. -/
theorem batchIsFinished_some (c : List Char) :
    batchIsFinished (some c) =
      Except.ok
        (decide (0 < (tailResult c 10 true 4098).length) &&
          hasSubstr finishedMarker ((tailResult c 10 true 4098).getLastD []),
         some c) := by
  show Except.ok (_, some ((tail ⟨c, 0⟩ 10 true 4098).2).content) = _
  rw [tail_content_preserved]
  rfl

/-! ### The claims -/

/-- C1: for every existing log file, `batchIsFinished` asks `tail` for the
last 10 lines with blank stripping and answers true exactly when that
result is non-empty and the completion marker is a substring of its last
line; the stripped result has no bare-newline entry, so that last line is
the last non-blank line; on an empty file the answer is false. -/
theorem batchIsFinished_marker_iff :
    (∀ c : List Char,
        (batchIsFinished (some c) = Except.ok (true, some c) ↔
          tailResult c 10 true 4098 ≠ [] ∧
            hasSubstr finishedMarker ((tailResult c 10 true 4098).getLastD []) = true) ∧
        ['\n'] ∉ tailResult c 10 true 4098) ∧
      batchIsFinished (some []) = Except.ok (false, some []) := by
  refine ⟨fun c => ⟨?_, bare_newline_not_mem_tailResult c 10 4098⟩, rfl⟩
  rw [batchIsFinished_some]
  simp [Bool.and_eq_true, decide_eq_true_eq, List.length_pos]

/-- C2 counterexample: on a file whose single line is longer than the
default block size, `tail` returns a proper suffix of that line, not the
last `min(k, L)` lines of the file. -/
theorem tail_not_exact_last_lines :
    tailResult longLineFile 1 false 4098 ≠ pySliceLast (readlines longLineFile) 1 := by
  rw [tailResult_longLineFile,
    show readlines longLineFile = [longLineFile] from readlines_replicate_nl 4098,
    pySliceLast, if_neg (by omega), List.length_singleton, Nat.sub_self, List.drop_zero]
  intro h
  injection h with hx _
  have hlen := congrArg List.length hx
  rw [List.length_append, List.length_replicate, List.length_singleton,
    longLineFile_length] at hlen
  omega

/-- C2 amended: with `stripBlank=false`, the result has exactly
`min(k, L)` entries; when the requested count exceeds the total line count
the whole file is returned byte-for-byte (hence oldest first), and an
empty file yields the empty sequence; when `k ≤ L` the entries are the
last `k` lines the backward scan read, whose first entry can be a proper
suffix of the corresponding file line if a block boundary falls inside
it. -/
theorem tail_count_min_lines (c : List Char) (k b : Nat) (hk : 1 ≤ k) (hb : 1 ≤ b) :
    (tailResult c k false b).length = min k (readlines c).length ∧
    ((readlines c).length < k → tailResult c k false b = readlines c) ∧
    (c = [] → tailResult c k false b = []) := by
  obtain ⟨h1, h2⟩ := tailResult_min_facts c k b hk hb
  refine ⟨h1, h2, ?_⟩
  intro hc
  subst hc
  have h0 : readlines ([] : List Char) = [] := rfl
  rw [h2 (by rw [h0, List.length_nil]; omega), h0]

/-- Witness for the C2 amended theorem at a concrete three-line file. -/
theorem tail_count_min_lines_w :
    1 ≤ 5 ∧ 1 ≤ 1 ∧
      ((tailResult ['a', '\n', 'b'] 5 false 1).length =
          min 5 (readlines ['a', '\n', 'b']).length ∧
        ((readlines ['a', '\n', 'b']).length < 5 →
          tailResult ['a', '\n', 'b'] 5 false 1 = readlines ['a', '\n', 'b']) ∧
        (['a', '\n', 'b'] = [] → tailResult ['a', '\n', 'b'] 5 false 1 = [])) :=
  ⟨by decide, by decide, tail_count_min_lines ['a', '\n', 'b'] 5 1 (by decide) (by decide)⟩

/-- C3: `reset_log_file` with the default `keeplines=0` on a two-line file
keeps the first line instead of emptying the file: the break check
`idx >= keeplines` fires right after the first line is appended. -/
theorem reset_log_file_keeps_first_line :
    reset_log_file ('a' :: '\n' :: 'b' :: '\n' :: []) 0 = ['a', '\n'] := by decide

/-- C4 counterexample: on a missing file `batchIsFinished` propagates the
`open` failure instead of returning false. -/
theorem batchIsFinished_missing_raises :
    batchIsFinished none = Except.error PyError.fileNotFound ∧
      Except.error PyError.fileNotFound ≠
        Except.ok (false, (none : Option (List Char))) :=
  ⟨rfl, fun h => Except.noConfusion h⟩

/-- C4 amended: a path naming no existing file makes `batchIsFinished`
raise the file-not-found error of `open`; on an existing file it yields a
single boolean (and leaves the file in place), with no distinction between
the reasons a false is returned. -/
theorem batchIsFinished_missing_file (file : Option (List Char)) :
    (file = none → batchIsFinished file = Except.error PyError.fileNotFound) ∧
    (∀ c, file = some c →
      ∃ bres : Bool, batchIsFinished file = Except.ok (bres, some c)) := by
  constructor
  · intro h
    subst h
    rfl
  · intro c h
    subst h
    exact ⟨_, batchIsFinished_some c⟩

/-- Witness for the C4 amended theorem at the missing file. -/
theorem batchIsFinished_missing_file_w :
    (none : Option (List Char)) = none ∧
      batchIsFinished none = Except.error PyError.fileNotFound :=
  ⟨rfl, (batchIsFinished_missing_file none).1 rfl⟩

/-- C5 counterexample: on the two-line file `"a\n\n"` with count 1,
`tail` truncates to the last entry (the blank line) and only then strips
it, returning the empty list, while stripping first and truncating after
would return the line `"a\n"`. -/
theorem tail_strip_order_counterexample :
    tailResult ('a' :: '\n' :: '\n' :: []) 1 true 4098 ≠
      specStripThenSlice ('a' :: '\n' :: '\n' :: []) 1 := by decide

/-- C5 amended: with `stripBlank` set, `tail` first truncates the
accumulated lines to the last at-most-`count` entries and only then
removes the blank (bare-newline) entries, so the result is the
blank-filtered truncation, not the truncated blank-filtered sequence. -/
theorem tail_truncate_then_strip (c : List Char) (k b : Nat) :
    tailResult c k true b = (tailResult c k false b).filter (fun l => l != ['\n']) :=
  tailResult_strip_eq_filter c k b

/-- C6 counterexample: a line of whitespace other than a bare newline
survives stripping, so the stripped result can contain an entirely
whitespace entry. -/
theorem tail_strip_keeps_whitespace_line :
    (' ' :: '\n' :: []) ∈ tailResult (' ' :: '\n' :: []) 1 true 4098 ∧
      (' ' :: '\n' :: []).all isWhitespaceChar = true := by decide

/-- C6 amended: the stripped result never contains a bare-newline entry
(entries of other whitespace are kept), and its length is at most the
length of the unstripped result on the same file and count. -/
theorem tail_strip_no_blank_entry (c : List Char) (k b : Nat) :
    ['\n'] ∉ tailResult c k true b ∧
      (tailResult c k true b).length ≤ (tailResult c k false b).length := by
  refine ⟨bare_newline_not_mem_tailResult c k b, ?_⟩
  rw [tailResult_strip_eq_filter]
  exact List.length_filter_le _ _

/-- C7: the lines `tail` returns do not depend on the handle position on
entry (the first action is an end-relative seek), and a second call on the
handle returned by a first call — the file unchanged in between — returns
the same lines. -/
theorem tail_idempotent_pos_independent (c : List Char) (p q k b : Nat) (s : Bool) :
    (tail ⟨c, p⟩ k s b).1 = (tail ⟨c, q⟩ k s b).1 ∧
      (tail (tail ⟨c, p⟩ k s b).2 k s b).1 = (tail ⟨c, p⟩ k s b).1 := by
  have h1 : ∀ p q : Nat, (tail ⟨c, p⟩ k s b).1 = (tail ⟨c, q⟩ k s b).1 := by
    intro p q
    have hl := (tailLoop_pos_irrel k b (c.length + 2) b [] c p q).1
    show (if s then stripEmptyLines (pySliceLast (tailLoop k b (c.length + 2) b [] ⟨c, p⟩).1 k)
          else pySliceLast (tailLoop k b (c.length + 2) b [] ⟨c, p⟩).1 k) =
        (tail ⟨c, q⟩ k s b).1
    rw [hl]
    rfl
  refine ⟨h1 p q, ?_⟩
  have hcont : ((tail ⟨c, p⟩ k s b).2).content = c := tail_content_preserved ⟨c, p⟩ k b s
  rcases hh : (tail ⟨c, p⟩ k s b).2 with ⟨c2, p2⟩
  rw [hh] at hcont
  have hc2 : c2 = c := hcont
  subst hc2
  exact h1 p2 p

/-- C8: a backward seek that would land before byte 0 is caught, the whole
file is read from the start, and the call still returns a tail result:
immediately when the file is shorter than one block, and eventually
whenever the file has fewer lines than requested. -/
theorem tail_seek_past_start_reads_all (c : List Char) (k b : Nat) (s : Bool)
    (hk : 1 ≤ k) (hb : 1 ≤ b) :
    (c.length < b →
      tailResult c k s b =
        if s then stripEmptyLines (pySliceLast (readlines c) k)
        else pySliceLast (readlines c) k) ∧
    ((readlines c).length < k →
      tailResult c k s b = if s then stripEmptyLines (readlines c) else readlines c) := by
  constructor
  · intro hlt
    have hloop : tailLoop k b (c.length + 2) b [] ⟨c, 0⟩ = (readlines c, ⟨c, c.length⟩) := by
      rw [show c.length + 2 = (c.length + 1) + 1 from rfl, tailLoop_succ]
      rw [if_neg (by simp only [List.length_nil]; omega)]
      rw [show seekEnd ⟨c, 0⟩ b = none from by rw [seekEnd, if_pos hlt]]
      simp [readlinesH]
    rw [tailResult_eq, hloop]
  · intro hLk
    have hfull := (tailResult_min_facts c k b hk hb).2 hLk
    cases s
    · simpa using hfull
    · rw [show tailResult c k true b = stripEmptyLines (tailResult c k false b) from rfl,
        hfull]
      rfl

/-- Witness for the C8 theorem on a one-character file. -/
theorem tail_seek_past_start_reads_all_w :
    1 ≤ 1 ∧ 1 ≤ 4098 ∧ (['a'] : List Char).length < 4098 ∧
      tailResult ['a'] 1 false 4098 =
        (if false then stripEmptyLines (pySliceLast (readlines ['a']) 1)
         else pySliceLast (readlines ['a']) 1) :=
  ⟨by decide, by decide, by decide,
    (tail_seek_past_start_reads_all ['a'] 1 4098 false (by decide) (by decide)).1 (by decide)⟩

/-- C9: with a positive block size the backward scan stops within
`content.length + 2` turns — more fuel never changes the outcome — and it
stops either with at least `count` accumulated lines or by the seek
reaching past the start of the file, in which case the entire file has
been read. -/
theorem tail_scan_terminates (c : List Char) (p k b fuel : Nat) (hb : 1 ≤ b)
    (hf : c.length + 2 ≤ fuel) :
    tailLoop k b fuel b [] ⟨c, p⟩ = tailLoop k b (c.length + 2) b [] ⟨c, p⟩ ∧
      (k ≤ ((tailLoop k b (c.length + 2) b [] ⟨c, p⟩).1).length ∨
        (tailLoop k b (c.length + 2) b [] ⟨c, p⟩).1 = readlines c) := by
  constructor
  · obtain ⟨d, hd⟩ : ∃ d, fuel = (c.length + 2) + d := ⟨fuel - (c.length + 2), by omega⟩
    subst hd
    exact tailLoop_fuel_add_stable k b hb c d (c.length + 2) b [] p (by omega) (by omega)
  · exact (tailLoop_master k b hb c (c.length + 2) b [] p (by omega) (by omega)
      ⟨c.length, by simp [readlines]⟩).2

/-- Witness for the C9 theorem on a one-character file with block size 1. -/
theorem tail_scan_terminates_w :
    1 ≤ 1 ∧ (['a'] : List Char).length + 2 ≤ 9 ∧
      (tailLoop 1 1 9 1 [] ⟨['a'], 0⟩ =
          tailLoop 1 1 ((['a'] : List Char).length + 2) 1 [] ⟨['a'], 0⟩ ∧
        (1 ≤ ((tailLoop 1 1 ((['a'] : List Char).length + 2) 1 [] ⟨['a'], 0⟩).1).length ∨
          (tailLoop 1 1 ((['a'] : List Char).length + 2) 1 [] ⟨['a'], 0⟩).1 =
            readlines ['a'])) :=
  ⟨by decide, by decide, tail_scan_terminates ['a'] 0 1 1 9 (by decide) (by decide)⟩

/-- C10: `tail` and `batchIsFinished` only read the monitored file: the
handle after `tail` still holds the same content, and on an existing file
`batchIsFinished` returns it unchanged next to its boolean. -/
theorem tail_batch_read_only :
    (∀ (h : Handle) (k b : Nat) (s : Bool), ((tail h k s b).2).content = h.content) ∧
      (∀ c : List Char, ∃ bres : Bool,
        batchIsFinished (some c) = Except.ok (bres, some c)) :=
  ⟨fun h k b s => tail_content_preserved h k b s,
   fun c => ⟨_, batchIsFinished_some c⟩⟩

end Odpy
